import Mathlib

/-!
Verification of the classification-and-rename core of dir_cleaner.py.

The Python core consists of
 - FileManager.get_category              : extension -> category name
 - FileManager.parse_comment             : regex parse of a metadata block comment
 - FileManager.parse_use_statement       : client name from the first USE statement
 - FileManager.extract_ticket_from_filename : ticket token from the filename
 - the pure composition of these in FileManager.rename_sql_file, which builds
   the record of ticket, client and date (called extract in the design notes).

Strings are modelled as List Char.  The Python regexes are modelled by an
explicit backtracking matcher whose combinators reproduce the engine order:
greedy quantifiers try the longest run first, lazy quantifiers the shortest,
and re.search tries start positions from the left.
-/

namespace DirCleaner

/-- The Python regex class backslash-s, restricted to ASCII: space, tab,
newline, carriage return, vertical tab, form feed.  Python str.strip uses the
same set of ASCII whitespace characters. -/
def isPySpace (c : Char) : Bool :=
  c == ' ' || c == '\t' || c == '\n' || c == '\r' || c == '\x0b' || c == '\x0c'

/-- The regex class [a-zA-Z0-9_], as in the USE-statement pattern. -/
def isWordChar (c : Char) : Bool :=
  c.isAlpha || c.isDigit || c == '_'

/-- Python str.strip with no argument: drop whitespace from both ends. -/
def pyStrip (s : List Char) : List Char :=
  ((s.dropWhile isPySpace).reverse.dropWhile isPySpace).reverse

/-- str.replace of a slash by a dash, on a single character. -/
def slashToDash (c : Char) : Char :=
  if c = '/' then '-' else c

/-- Match a literal list of characters at the start of the input, returning
the remainder on success. -/
def matchLit : List Char → List Char → Option (List Char)
  | [], s => some s
  | _ :: _, [] => none
  | c :: cs, x :: xs => if x = c then matchLit cs xs else none

/-- Greedy star over a character class with backtracking into the
continuation: the longest run is tried first, exactly as a backtracking
regex engine treats a greedy star of a character class. -/
def starG (p : Char → Bool) (k : List Char → Option α) : List Char → Option α
  | [] => k []
  | c :: cs =>
    if p c then
      match starG p k cs with
      | some r => some r
      | none => k (c :: cs)
    else k (c :: cs)

/-- Greedy plus over a character class: one mandatory character, then `starG`. -/
def plusG (p : Char → Bool) (k : List Char → Option α) : List Char → Option α
  | [] => none
  | c :: cs => if p c then starG p k cs else none

/-- Lazy dot-star under DOTALL, no capture: the shortest consumption is tried
first, growing only while the continuation fails. -/
def starL (k : List Char → Option α) : List Char → Option α
  | [] => k []
  | c :: cs =>
    match k (c :: cs) with
    | some r => some r
    | none => starL k cs

/-- Lazy dot-star under DOTALL with capture: tries the shortest capture
first; `acc` holds the reversed characters captured so far. -/
def starLcap (k : List Char → List Char → Option α) :
    List Char → List Char → Option α
  | acc, [] => k acc.reverse []
  | acc, c :: cs =>
    match k acc.reverse (c :: cs) with
    | some r => some r
    | none => starLcap k (c :: acc) cs

/-- re.search: try the pattern at each start position, leftmost first. -/
def searchFrom (m : List Char → Option α) : List Char → Option α
  | [] => m []
  | c :: cs =>
    match m (c :: cs) with
    | some r => some r
    | none => searchFrom m cs

def ticketLabel : List Char := ['T', 'i', 'c', 'k', 'e', 't', ':']

def clientLabel : List Char := ['C', 'l', 'i', 'e', 'n', 't', ':']

def dateLabel : List Char := ['D', 'a', 't', 'e', ':']

/-- One field tail of the comment pattern: greedy whitespace star, then a
lazy capture, then a literal semicolon, handing the capture and the
remainder to the continuation. -/
def wsField (k : List Char → List Char → Option α) (s : List Char) : Option α :=
  starG isPySpace (fun s1 =>
    starLcap (fun g s2 => (matchLit [';'] s2).bind (k g)) [] s1) s

/-- The comment regex of parse_comment, anchored at the current position,
with the captures of the three fields as result. -/
def matchComment (s : List Char) : Option (List Char × List Char × List Char) :=
  (matchLit ['/', '*'] s).bind (fun s1 =>
    plusG (fun ch => ch == '*')
      (fun s2 =>
        starG isPySpace
          (fun s3 =>
            (matchLit ticketLabel s3).bind (fun s4 =>
              wsField
                (fun g1 s5 =>
                  starG isPySpace
                    (fun s6 =>
                      (matchLit clientLabel s6).bind (fun s7 =>
                        wsField
                          (fun g2 s8 =>
                            starG isPySpace
                              (fun s9 =>
                                (matchLit dateLabel s9).bind (fun s10 =>
                                  wsField
                                    (fun g3 s11 =>
                                      starG isPySpace
                                        (fun s12 =>
                                          starL
                                            (fun s13 =>
                                              (matchLit ['*', '/'] s13).map
                                                (fun _ => (g1, g2, g3)))
                                            s12)
                                        s11)
                                    s10))
                              s8)
                          s7))
                    s5)
                s4))
          s2)
      s1)

/-- FileManager.parse_comment: search the content for the metadata block
comment; on a match, strip each field and normalise slashes in the date. -/
def parse_comment (content : List Char) :
    Option (List Char × List Char × List Char) :=
  match searchFrom matchComment content with
  | some (t, c, d) => some (pyStrip t, pyStrip c, (pyStrip d).map slashToDash)
  | none => none

/-- One attempt of the USE regex at the current position: the literal USE
case-insensitively, then at least one whitespace, then at least one word
character.  The whitespace run and the identifier are both maximal, which
agrees with the backtracking engine because the two classes are disjoint
and nothing follows the identifier in the pattern. -/
def tryUseAt (s : List Char) : Option (List Char) :=
  match s with
  | u :: s1 :: e :: rest =>
    if u.toLower == 'u' && s1.toLower == 's' && e.toLower == 'e' then
      let w := rest.takeWhile isPySpace
      let afterW := rest.dropWhile isPySpace
      let ident := afterW.takeWhile isWordChar
      if w.isEmpty || ident.isEmpty then none else some ident
    else none
  | _ => none

/-- FileManager.parse_use_statement: find the first USE statement; keep the
leading alphabetic run of the database name, or the whole name when it does
not start with a letter; UnknownClient when there is no USE statement. -/
def parse_use_statement (content : List Char) : List Char :=
  match searchFrom tryUseAt content with
  | some dbName =>
    let run := dbName.takeWhile Char.isAlpha
    if run.isEmpty then dbName else run
  | none => "UnknownClient".toList

/-- One attempt of one alternative of the ticket regex: the literal prefix,
a dash, then a maximal nonempty digit run, returning the whole match. -/
def tryTicketWith (p : List Char) (s : List Char) : Option (List Char) :=
  match matchLit (p ++ ['-']) s with
  | some rest =>
    let ds := rest.takeWhile Char.isDigit
    if ds.isEmpty then none else some (p ++ '-' :: ds)
  | none => none

/-- One attempt of the ticket regex at the current position, trying the
alternatives LBDM, LBIN, PROV in the order they appear in the pattern. -/
def tryTicketAt (s : List Char) : Option (List Char) :=
  match tryTicketWith ['L', 'B', 'D', 'M'] s with
  | some r => some r
  | none =>
    match tryTicketWith ['L', 'B', 'I', 'N'] s with
    | some r => some r
    | none => tryTicketWith ['P', 'R', 'O', 'V'] s

/-- FileManager.extract_ticket_from_filename: first ticket token of the
filename, or UnknownTicket. -/
def extract_ticket_from_filename (filename : List Char) : List Char :=
  match searchFrom tryTicketAt filename with
  | some t => t
  | none => "UnknownTicket".toList

/-- Python str.capitalize over ASCII: first character upper-cased, the rest
lower-cased. -/
def pyCapitalize : List Char → List Char
  | [] => []
  | c :: cs => c.toUpper :: cs.map Char.toLower

/-- The loop body of FileManager.get_category: first table entry whose
lower-cased extension tuple contains the lower-cased input wins. -/
def lookupCategory (e : List Char) :
    List (List Char × List (List Char)) → List Char
  | [] => "Other".toList
  | (name, exts) :: rest =>
    if e ∈ exts.map (fun x => x.map Char.toLower) then pyCapitalize name
    else lookupCategory e rest

/-- FileManager.get_category, parameterised by the category table. -/
def get_category (table : List (List Char × List (List Char)))
    (file_extension : List Char) : List Char :=
  lookupCategory (file_extension.map Char.toLower) table

/-- The default category table of FileManager. -/
def defaultCategories : List (List Char × List (List Char)) :=
  [ ("audio".toList, [".mp3".toList, ".wav".toList, ".flac".toList, ".aac".toList])
  , ("video".toList, [".mp4".toList, ".mov".toList, ".avi".toList, ".mkv".toList])
  , ("images".toList, [".jpg".toList, ".jpeg".toList, ".png".toList, ".gif".toList, ".bmp".toList, ".tiff".toList])
  , ("documents".toList, [".pdf".toList, ".docx".toList, ".txt".toList, ".xlsx".toList, ".csv".toList, ".pptx".toList])
  , ("database_scripts".toList, [".sql".toList])
  , ("python_scripts".toList, [".py".toList, ".ipynb".toList])
  , ("compressed".toList, [".zip".toList, ".rar".toList, ".gz".toList, ".7z".toList]) ]

/-- The record built by rename_sql_file. -/
structure SqlMetadata where
  ticket : List Char
  client : List Char
  date : List Char
deriving DecidableEq, Repr

/-- The pure metadata part of FileManager.rename_sql_file: each field comes
from the comment when present and nonempty there, and otherwise from its
fallback; the Python `or` treats the empty string and a missing key alike.
The current date is passed in as `today`. -/
def extract (content filename today : List Char) : SqlMetadata :=
  match parse_comment content with
  | some (t, c, d) =>
    { ticket := if t = [] then extract_ticket_from_filename filename else t
      client := if c = [] then parse_use_statement content else c
      date := if d = [] then today else d }
  | none =>
    { ticket := extract_ticket_from_filename filename
      client := parse_use_statement content
      date := today }

/-- The general shape of a well-formed metadata block comment,
slash-star-star space Ticket: T; Client: C; Date: D; space star-slash,
with arbitrary field texts. -/
def metaBlock (t c d : List Char) : List Char :=
  '/' :: '*' :: '*' :: ' ' ::
    (ticketLabel ++ ' ' ::
      (t ++ ';' :: ' ' ::
        (clientLabel ++ ' ' ::
          (c ++ ';' :: ' ' ::
            (dateLabel ++ ' ' ::
              (d ++ [';', ' ', '*', '/']))))))

/-- The same block with the semicolon after the Date value missing. -/
def malformedBlock (t c d : List Char) : List Char :=
  '/' :: '*' :: '*' :: ' ' ::
    (ticketLabel ++ ' ' ::
      (t ++ ';' :: ' ' ::
        (clientLabel ++ ' ' ::
          (c ++ ';' :: ' ' ::
            (dateLabel ++ ' ' ::
              (d ++ [' ', '*', '/']))))))

/-! ### Basic combinator lemmas -/

theorem matchLit_self (l s : List Char) : matchLit l (l ++ s) = some s := by
  induction l with
  | nil => rfl
  | cons c cs ih => simp [matchLit, ih]

theorem matchLit_suffix {l : List Char} :
    ∀ {s t : List Char}, matchLit l s = some t → t <:+ s := by
  induction l with
  | nil =>
    intro s t h
    simp only [matchLit, Option.some.injEq] at h
    exact h ▸ List.suffix_refl s
  | cons c cs ih =>
    intro s t h
    cases s with
    | nil => simp [matchLit] at h
    | cons x xs =>
      by_cases hx : x = c
      · simp only [matchLit, if_pos hx] at h
        exact (ih h).trans (List.suffix_cons x xs)
      · simp [matchLit, hx] at h

theorem matchLit_cons_ne {c x : Char} {cs xs : List Char} (h : x ≠ c) :
    matchLit (c :: cs) (x :: xs) = none := by
  simp [matchLit, h]

theorem matchLit_single {c : Char} {s t : List Char}
    (h : matchLit [c] s = some t) : s = c :: t := by
  cases s with
  | nil => simp [matchLit] at h
  | cons x xs =>
    by_cases hx : x = c
    · simp only [matchLit, if_pos hx] at h
      simp only [matchLit, Option.some.injEq] at h
      simp [hx, h]
    · simp [matchLit, hx] at h

theorem starG_suffix {p : Char → Bool} {k : List Char → Option α} :
    ∀ {s : List Char} {r : α}, starG p k s = some r →
      ∃ t, t <:+ s ∧ k t = some r := by
  intro s
  induction s with
  | nil =>
    intro r h
    exact ⟨[], List.suffix_refl _, h⟩
  | cons c cs ih =>
    intro r h
    by_cases hc : p c
    · rw [starG, if_pos hc] at h
      cases hm : starG p k cs with
      | some r2 =>
        rw [hm] at h
        simp only [Option.some.injEq] at h
        obtain ⟨t, ht, hk⟩ := ih hm
        exact ⟨t, ht.trans (List.suffix_cons c cs), h ▸ hk⟩
      | none =>
        rw [hm] at h
        exact ⟨c :: cs, List.suffix_refl _, h⟩
    · rw [starG, if_neg hc] at h
      exact ⟨c :: cs, List.suffix_refl _, h⟩

theorem plusG_suffix {p : Char → Bool} {k : List Char → Option α}
    {s : List Char} {r : α} (h : plusG p k s = some r) :
    ∃ t, t <:+ s ∧ k t = some r := by
  cases s with
  | nil => simp [plusG] at h
  | cons c cs =>
    by_cases hc : p c
    · rw [plusG, if_pos hc] at h
      obtain ⟨t, ht, hk⟩ := starG_suffix h
      exact ⟨t, ht.trans (List.suffix_cons c cs), hk⟩
    · rw [plusG, if_neg hc] at h
      exact absurd h (by simp)

theorem starL_suffix {k : List Char → Option α} :
    ∀ {s : List Char} {r : α}, starL k s = some r →
      ∃ t, t <:+ s ∧ k t = some r := by
  intro s
  induction s with
  | nil =>
    intro r h
    exact ⟨[], List.suffix_refl _, h⟩
  | cons c cs ih =>
    intro r h
    rw [starL] at h
    cases hm : k (c :: cs) with
    | some r2 =>
      rw [hm] at h
      simp only [Option.some.injEq] at h
      exact ⟨c :: cs, List.suffix_refl _, h ▸ hm⟩
    | none =>
      rw [hm] at h
      obtain ⟨t, ht, hk⟩ := ih h
      exact ⟨t, ht.trans (List.suffix_cons c cs), hk⟩

theorem starLcap_suffix {k : List Char → List Char → Option α} :
    ∀ {s acc : List Char} {r : α}, starLcap k acc s = some r →
      ∃ g t, t <:+ s ∧ k g t = some r := by
  intro s
  induction s with
  | nil =>
    intro acc r h
    exact ⟨acc.reverse, [], List.suffix_refl _, h⟩
  | cons c cs ih =>
    intro acc r h
    rw [starLcap] at h
    cases hm : k acc.reverse (c :: cs) with
    | some r2 =>
      rw [hm] at h
      simp only [Option.some.injEq] at h
      exact ⟨acc.reverse, c :: cs, List.suffix_refl _, h ▸ hm⟩
    | none =>
      rw [hm] at h
      obtain ⟨g, t, ht, hk⟩ := ih h
      exact ⟨g, t, ht.trans (List.suffix_cons c cs), hk⟩

theorem searchFrom_suffix {m : List Char → Option α} :
    ∀ {s : List Char} {r : α}, searchFrom m s = some r →
      ∃ t, t <:+ s ∧ m t = some r := by
  intro s
  induction s with
  | nil =>
    intro r h
    exact ⟨[], List.suffix_refl _, h⟩
  | cons c cs ih =>
    intro r h
    rw [searchFrom] at h
    cases hm : m (c :: cs) with
    | some r2 =>
      rw [hm] at h
      simp only [Option.some.injEq] at h
      exact ⟨c :: cs, List.suffix_refl _, h ▸ hm⟩
    | none =>
      rw [hm] at h
      obtain ⟨t, ht, hk⟩ := ih h
      exact ⟨t, ht.trans (List.suffix_cons c cs), hk⟩

/-! ### Success lemmas: running the matcher over a well-formed block -/

theorem starG_max {p : Char → Bool} {k : List Char → Option α} {r : α} :
    ∀ {a b : List Char}, (∀ x ∈ a, p x = true) →
      (∀ y ys, b = y :: ys → p y = false) → k b = some r →
      starG p k (a ++ b) = some r := by
  intro a
  induction a with
  | nil =>
    intro b _ hb hk
    cases b with
    | nil => exact hk
    | cons y ys =>
      rw [List.nil_append, starG, if_neg (by simp [hb y ys rfl])]
      exact hk
  | cons c cs ih =>
    intro b ha hb hk
    have hc : p c = true := ha c (by simp)
    rw [List.cons_append, starG, if_pos hc,
      ih (fun x hx => ha x (by simp [hx])) hb hk]

theorem starLcap_acc {k : List Char → List Char → Option α} {r : α} :
    ∀ (a : List Char) (acc b : List Char),
      (∀ a1 a2, a = a1 ++ a2 → a2 ≠ [] → k (acc.reverse ++ a1) (a2 ++ b) = none) →
      k (acc.reverse ++ a) b = some r →
      starLcap k acc (a ++ b) = some r := by
  intro a
  induction a with
  | nil =>
    intro acc b _ hk
    cases b with
    | nil => simpa using hk
    | cons y ys =>
      rw [List.nil_append, starLcap]
      simp only [List.append_nil] at hk
      rw [hk]
  | cons c cs ih =>
    intro acc b hfail hk
    rw [List.cons_append, starLcap]
    have h0 : k acc.reverse (c :: (cs ++ b)) = none := by
      have := hfail [] (c :: cs) rfl (by simp)
      simpa using this
    rw [h0]
    refine ih (c :: acc) b ?_ ?_
    · intro a1 a2 hsplit hne
      have := hfail (c :: a1) a2 (by simp [hsplit]) hne
      simpa using this
    · simpa using hk

theorem starLcap_first {k : List Char → List Char → Option α} {r : α}
    {a b : List Char}
    (hfail : ∀ a1 a2, a = a1 ++ a2 → a2 ≠ [] → k a1 (a2 ++ b) = none)
    (hk : k a b = some r) :
    starLcap k [] (a ++ b) = some r := by
  refine starLcap_acc a [] b ?_ ?_
  · intro a1 a2 hsplit hne
    simpa using hfail a1 a2 hsplit hne
  · simpa using hk

theorem head_dropWhile_not {p : Char → Bool} :
    ∀ {l : List Char} {c : Char} {cs : List Char},
      l.dropWhile p = c :: cs → p c = false := by
  intro l
  induction l with
  | nil => intro c cs h; simp [List.dropWhile] at h
  | cons x xs ih =>
    intro c cs h
    by_cases hx : p x
    · rw [List.dropWhile_cons_of_pos hx] at h
      exact ih h
    · rw [List.dropWhile_cons_of_neg hx] at h
      cases h
      simpa using hx

theorem mem_of_mem_dropWhile {p : Char → Bool} {l : List Char} {x : Char}
    (h : x ∈ l.dropWhile p) : x ∈ l :=
  (List.dropWhile_sublist p).mem h

/-- Running `wsField k` over one whitespace character, a semicolon-free
value, the terminating semicolon and the rest: the capture is the value
without its leading whitespace. -/
theorem wsField_match {k : List Char → List Char → Option α} {r : α}
    {v rest : List Char} (hv : ';' ∉ v)
    (hk : k (v.dropWhile isPySpace) rest = some r) :
    wsField k (' ' :: (v ++ ';' :: rest)) = some r := by
  have hsplit : ' ' :: (v ++ ';' :: rest) =
      (' ' :: v.takeWhile isPySpace) ++ (v.dropWhile isPySpace ++ ';' :: rest) := by
    simp only [List.cons_append, ← List.append_assoc, List.takeWhile_append_dropWhile]
  rw [wsField, hsplit]
  refine starG_max ?_ ?_ ?_
  · intro x hx
    rcases List.mem_cons.mp hx with h | h
    · subst h; rfl
    · exact List.mem_takeWhile_imp h
  · intro y ys hy
    cases hd : v.dropWhile isPySpace with
    | nil =>
      rw [hd] at hy
      simp only [List.nil_append, List.cons.injEq] at hy
      rw [← hy.1]
      rfl
    | cons c cs =>
      rw [hd] at hy
      simp only [List.cons_append, List.cons.injEq] at hy
      rw [← hy.1]
      exact head_dropWhile_not hd
  · refine starLcap_first ?_ ?_
    · intro a1 a2 hsplit2 hne
      cases a2 with
      | nil => exact absurd rfl hne
      | cons c cs =>
        have hc : c ∈ v := by
          refine mem_of_mem_dropWhile (p := isPySpace) ?_
          rw [hsplit2]
          simp
        have hcne : c ≠ ';' := fun hcc => hv (hcc ▸ hc)
        rw [List.cons_append, matchLit_cons_ne hcne]
        rfl
    · rw [show matchLit [';'] (';' :: rest) = some rest from matchLit_self [';'] rest]
      simpa using hk

/-- Running the label-plus-field segment: one whitespace, the label, one
whitespace, the semicolon-free value, the semicolon, the rest. -/
theorem labelField_match {k : List Char → List Char → Option α} {r : α}
    {lab v rest : List Char} {c0 : Char} {lab0 : List Char}
    (hlab : lab = c0 :: lab0) (hc0 : isPySpace c0 = false) (hv : ';' ∉ v)
    (hk : k (v.dropWhile isPySpace) rest = some r) :
    starG isPySpace
      (fun s => (matchLit lab s).bind (fun s2 => wsField k s2))
      (' ' :: (lab ++ ' ' :: (v ++ ';' :: rest))) = some r := by
  have h1 : (' ' :: (lab ++ ' ' :: (v ++ ';' :: rest))) =
      [' '] ++ (lab ++ ' ' :: (v ++ ';' :: rest)) := by simp
  rw [h1]
  refine starG_max ?_ ?_ ?_
  · intro x hx
    simp only [List.mem_singleton] at hx
    subst hx; rfl
  · intro y ys hy
    rw [hlab] at hy
    simp only [List.cons_append, List.cons.injEq] at hy
    rw [← hy.1]
    exact hc0
  · rw [matchLit_self lab (' ' :: (v ++ ';' :: rest))]
    simp only [Option.some_bind]
    exact wsField_match hv hk

/-- Running the closing segment of the pattern over one whitespace and the
comment terminator, with an arbitrary remainder of the file after it. -/
theorem tail_match {r : α} {g : α} {rest : List Char}
    (hg : g = r) :
    starG isPySpace
      (fun s12 => starL (fun s13 => (matchLit ['*', '/'] s13).map (fun _ => g)) s12)
      (' ' :: '*' :: '/' :: rest) = some r := by
  have h1 : (' ' :: '*' :: '/' :: rest) = [' '] ++ ('*' :: '/' :: rest) := by simp
  rw [h1]
  refine starG_max ?_ ?_ ?_
  · intro x hx
    simp only [List.mem_singleton] at hx
    subst hx; rfl
  · intro y ys hy
    simp only [List.cons.injEq] at hy
    rw [← hy.1]
    rfl
  · rw [starL,
      show matchLit ['*', '/'] ('*' :: '/' :: rest) = some rest from
        matchLit_self ['*', '/'] rest]
    simp [hg]

theorem starG_stop {p : Char → Bool} {k : List Char → Option α} {c : Char}
    {cs : List Char} (hc : p c = false) : starG p k (c :: cs) = k (c :: cs) := by
  rw [starG, if_neg (by simp [hc])]

theorem plusG_cons {p : Char → Bool} {k : List Char → Option α} {c : Char}
    {cs : List Char} (hc : p c = true) : plusG p k (c :: cs) = starG p k cs := by
  rw [plusG, if_pos hc]

theorem dropWhile_dropWhile (p : Char → Bool) (l : List Char) :
    (l.dropWhile p).dropWhile p = l.dropWhile p := by
  induction l with
  | nil => rfl
  | cons x xs ih =>
    by_cases hx : p x
    · rw [List.dropWhile_cons_of_pos hx]; exact ih
    · rw [List.dropWhile_cons_of_neg hx, List.dropWhile_cons_of_neg hx]

theorem pyStrip_dropWhile (l : List Char) :
    pyStrip (l.dropWhile isPySpace) = pyStrip l := by
  rw [pyStrip, pyStrip, dropWhile_dropWhile]

/-- The comment matcher succeeds at the start of a well-formed block, for an
arbitrary remainder of the file after it, capturing each field without its
leading whitespace. -/
theorem matchComment_metaBlock (t c d r : List Char)
    (ht : ';' ∉ t) (hc : ';' ∉ c) (hd : ';' ∉ d) :
    matchComment (metaBlock t c d ++ r) =
      some (t.dropWhile isPySpace,
            c.dropWhile isPySpace,
            d.dropWhile isPySpace) := by
  have e : metaBlock t c d ++ r =
      '/' :: '*' :: '*' :: ' ' ::
        (ticketLabel ++ ' ' ::
          (t ++ ';' :: ' ' ::
            (clientLabel ++ ' ' ::
              (c ++ ';' :: ' ' ::
                (dateLabel ++ ' ' ::
                  (d ++ ';' :: ' ' :: '*' :: '/' :: r)))))) := by
    simp [metaBlock]
  rw [e, matchComment]
  rw [show ∀ s : List Char, matchLit ['/', '*'] ('/' :: '*' :: s) = some s from
    fun s => matchLit_self ['/', '*'] s]
  simp only [Option.some_bind]
  rw [plusG_cons (by decide)]
  rw [starG_stop (by decide)]
  refine labelField_match (show ticketLabel = 'T' :: ['i', 'c', 'k', 'e', 't', ':'] from rfl)
    (by decide) ht ?_
  refine labelField_match (show clientLabel = 'C' :: ['l', 'i', 'e', 'n', 't', ':'] from rfl)
    (by decide) hc ?_
  refine labelField_match (show dateLabel = 'D' :: ['a', 't', 'e', ':'] from rfl)
    (by decide) hd ?_
  exact tail_match rfl

theorem matchComment_ne_slash {x : Char} {s : List Char} (hx : x ≠ '/') :
    matchComment (x :: s) = none := by
  rw [matchComment, matchLit_cons_ne hx]
  rfl

theorem searchFrom_matchComment_skip {p : List Char} (s : List Char)
    (hp : '/' ∉ p) :
    searchFrom matchComment (p ++ s) = searchFrom matchComment s := by
  induction p with
  | nil => rfl
  | cons x xs ih =>
    have hx : x ≠ '/' := fun h => hp (h ▸ List.mem_cons_self x xs)
    rw [List.cons_append, searchFrom, matchComment_ne_slash hx]
    exact ih fun h => hp (List.mem_cons_of_mem x h)

theorem searchFrom_head {m : List Char → Option α} {c : Char} {cs : List Char}
    {r : α} (h : m (c :: cs) = some r) : searchFrom m (c :: cs) = some r := by
  rw [searchFrom, h]

/-- parse_comment on a file made of a slash-free prefix, a well-formed
metadata block with semicolon-free field texts, and an arbitrary remainder:
the result is the stripped fields of the block, the date with slashes
normalised to dashes. -/
theorem parse_comment_block (p t c d r : List Char)
    (hp : '/' ∉ p) (ht : ';' ∉ t) (hc : ';' ∉ c) (hd : ';' ∉ d) :
    parse_comment (p ++ (metaBlock t c d ++ r)) =
      some (pyStrip t, pyStrip c, (pyStrip d).map slashToDash) := by
  have h1 : searchFrom matchComment (p ++ (metaBlock t c d ++ r)) =
      some (t.dropWhile isPySpace, c.dropWhile isPySpace,
            d.dropWhile isPySpace) := by
    rw [searchFrom_matchComment_skip _ hp]
    exact searchFrom_head (matchComment_metaBlock t c d r ht hc hd)
  rw [parse_comment, h1]
  simp only [pyStrip_dropWhile]

/-! ### Counting semicolons: a successful comment match needs three -/

theorem wsField_semis {k : List Char → List Char → Option α} {s : List Char}
    {r : α} (h : wsField k s = some r) :
    ∃ g t, (';' :: t) <:+ s ∧ k g t = some r := by
  rw [wsField] at h
  obtain ⟨s1, hs1, h1⟩ := starG_suffix h
  obtain ⟨g, s2, hs2, h2⟩ := starLcap_suffix h1
  obtain ⟨s3, hm3, h3⟩ := Option.bind_eq_some.mp h2
  have hc := matchLit_single hm3
  exact ⟨g, s3, (hc ▸ hs2).trans hs1, h3⟩

theorem matchComment_semis {s : List Char}
    {r : List Char × List Char × List Char}
    (h : matchComment s = some r) : 3 ≤ List.count ';' s := by
  rw [matchComment] at h
  obtain ⟨s1, hm1, h1⟩ := Option.bind_eq_some.mp h
  obtain ⟨s2, hs2, h2⟩ := plusG_suffix h1
  obtain ⟨s3, hs3, h3⟩ := starG_suffix h2
  obtain ⟨s4, hm4, h4⟩ := Option.bind_eq_some.mp h3
  obtain ⟨g1, t5, hs5, h5⟩ := wsField_semis h4
  obtain ⟨s6, hs6, h6⟩ := starG_suffix h5
  obtain ⟨s7, hm7, h7⟩ := Option.bind_eq_some.mp h6
  obtain ⟨g2, t8, hs8, h8⟩ := wsField_semis h7
  obtain ⟨s9, hs9, h9⟩ := starG_suffix h8
  obtain ⟨s10, hm10, h10⟩ := Option.bind_eq_some.mp h9
  obtain ⟨g3, t11, hs11, _⟩ := wsField_semis h10
  have c1 := ((matchLit_suffix hm1).sublist).count_le ';'
  have c2 := (hs2.sublist).count_le (a := ';')
  have c3 := (hs3.sublist).count_le (a := ';')
  have c4 := ((matchLit_suffix hm4).sublist).count_le (a := ';')
  have c5 := (hs5.sublist).count_le (a := ';')
  have c6 := (hs6.sublist).count_le (a := ';')
  have c7 := ((matchLit_suffix hm7).sublist).count_le (a := ';')
  have c8 := (hs8.sublist).count_le (a := ';')
  have c9 := (hs9.sublist).count_le (a := ';')
  have c10 := ((matchLit_suffix hm10).sublist).count_le (a := ';')
  have c11 := (hs11.sublist).count_le (a := ';')
  have e5 : List.count ';' (';' :: t5) = List.count ';' t5 + 1 :=
    List.count_cons_self ';' t5
  have e8 : List.count ';' (';' :: t8) = List.count ';' t8 + 1 :=
    List.count_cons_self ';' t8
  have e11 : List.count ';' (';' :: t11) = List.count ';' t11 + 1 :=
    List.count_cons_self ';' t11
  omega

theorem parse_comment_eq_none {content : List Char}
    (hcount : List.count ';' content < 3) : parse_comment content = none := by
  cases hs : searchFrom matchComment content with
  | none => rw [parse_comment, hs]
  | some res =>
    exfalso
    obtain ⟨t, ht, hm⟩ := searchFrom_suffix hs
    have h3 := matchComment_semis hm
    have hle := (ht.sublist).count_le (a := ';')
    omega

theorem count_malformed (p t c d r : List Char) (hp : ';' ∉ p) (ht : ';' ∉ t)
    (hc : ';' ∉ c) (hd : ';' ∉ d) (hr : ';' ∉ r) :
    List.count ';' (p ++ (malformedBlock t c d ++ r)) = 2 := by
  have h0 : ∀ l : List Char, ';' ∉ l → List.count ';' l = 0 := fun l h =>
    List.count_eq_zero.mpr h
  simp [malformedBlock, ticketLabel, clientLabel, dateLabel,
    List.count_append, List.count_cons, h0 p hp, h0 t ht, h0 c hc, h0 d hd,
    h0 r hr]

/-! ### Category table lemmas -/

theorem lookupCat_spec (e : List Char) :
    ∀ table : List (List Char × List (List Char)),
      (lookupCategory e table = "Other".toList ∨
        ∃ q ∈ table, lookupCategory e table = pyCapitalize q.1) ∧
      ((∀ q ∈ table, e ∉ q.2.map (fun x => x.map Char.toLower)) →
        lookupCategory e table = "Other".toList) := by
  intro table
  induction table with
  | nil => exact ⟨Or.inl rfl, fun _ => rfl⟩
  | cons q0 rest ih =>
    obtain ⟨name, exts⟩ := q0
    by_cases hmem : e ∈ exts.map (fun x => x.map Char.toLower)
    · constructor
      · exact Or.inr ⟨(name, exts), by simp,
          by rw [lookupCategory, if_pos hmem]⟩
      · intro hno
        exact absurd hmem (hno (name, exts) (by simp))
    · have hstep : lookupCategory e ((name, exts) :: rest) =
          lookupCategory e rest := by
        rw [lookupCategory, if_neg hmem]
      constructor
      · rcases ih.1 with h | ⟨q, hq, hq2⟩
        · exact Or.inl (hstep.trans h)
        · exact Or.inr ⟨q, List.mem_cons_of_mem _ hq, hstep.trans hq2⟩
      · intro hno
        exact hstep.trans
          (ih.2 fun q hq => hno q (List.mem_cons_of_mem _ hq))

theorem char_toNat_ofNat {n : Nat} (h : n < 55296) :
    (Char.ofNat n).toNat = n := by
  have hv : n.isValidChar := Or.inl h
  rw [Char.ofNat, dif_pos hv]
  rfl

theorem toLower_toLower (c : Char) : c.toLower.toLower = c.toLower := by
  by_cases h : c.toNat ≥ 65 ∧ c.toNat ≤ 90
  · have h1 : c.toLower = Char.ofNat (c.toNat + 32) := by
      rw [Char.toLower, if_pos h]
    have h2 : c.toLower.toNat = c.toNat + 32 := by
      rw [h1]
      exact char_toNat_ofNat (by omega)
    have h3 : ¬(c.toLower.toNat ≥ 65 ∧ c.toLower.toNat ≤ 90) := by
      rw [h2]
      omega
    rw [Char.toLower, if_neg h3]
  · have h1 : c.toLower = c := by rw [Char.toLower, if_neg h]
    rw [h1]
    exact h1

theorem map_toLower_idem (l : List Char) :
    (l.map Char.toLower).map Char.toLower = l.map Char.toLower := by
  simp only [List.map_map, Function.comp_def, toLower_toLower]

/-! ### The claims -/

/-- Claim C1: for content made of a slash-free prefix, a well-formed
metadata block comment with semicolon-free field texts whose trimmed values
are nonempty, and an arbitrary remainder, extract returns the Ticket and
Client values trimmed and the Date value trimmed with every slash replaced
by a dash; in particular the literal example content yields ticket
LBDM-100, client Acme and date 2024-01-05. -/
theorem claim_c1 (p t c d r filename today : List Char)
    (hp : '/' ∉ p) (ht : ';' ∉ t) (hc : ';' ∉ c) (hd : ';' ∉ d)
    (ht2 : pyStrip t ≠ []) (hc2 : pyStrip c ≠ []) (hd2 : pyStrip d ≠ []) :
    extract (p ++ (metaBlock t c d ++ r)) filename today =
      ⟨pyStrip t, pyStrip c, (pyStrip d).map slashToDash⟩ ∧
    extract "/** Ticket: LBDM-100; Client: Acme; Date: 2024/01/05; */".toList
        filename today =
      ⟨"LBDM-100".toList, "Acme".toList, "2024-01-05".toList⟩ := by
  constructor
  · have hm : (pyStrip d).map slashToDash ≠ [] := fun h =>
      hd2 (List.map_eq_nil_iff.mp h)
    rw [extract, parse_comment_block p t c d r hp ht hc hd]
    simp [ht2, hc2, hm]
  · have h : parse_comment
        "/** Ticket: LBDM-100; Client: Acme; Date: 2024/01/05; */".toList =
        some ("LBDM-100".toList, "Acme".toList, "2024-01-05".toList) := by
      decide
    rw [extract, h]
    simp

theorem claim_c1_witness :
    extract (([] : List Char) ++
        (metaBlock "LBDM-100".toList "Acme".toList "2024/01/05".toList ++ []))
      "f.sql".toList "2099-01-01".toList =
      ⟨"LBDM-100".toList, "Acme".toList, "2024-01-05".toList⟩ :=
  ((claim_c1 [] "LBDM-100".toList "Acme".toList "2024/01/05".toList []
      "f.sql".toList "2099-01-01".toList (by decide) (by decide) (by decide)
      (by decide) (by decide) (by decide) (by decide)).1).trans (by decide)

/-- Claim C2: when the metadata block lacks the semicolon after the Date
value and the rest of the content carries no other semicolons that could
complete a match, the comment parse yields nothing and all three fields of
extract come from the fallback strategies. -/
theorem claim_c2 (p t c d r filename today : List Char)
    (hp : ';' ∉ p) (ht : ';' ∉ t) (hc : ';' ∉ c) (hd : ';' ∉ d)
    (hr : ';' ∉ r) :
    parse_comment (p ++ (malformedBlock t c d ++ r)) = none ∧
    extract (p ++ (malformedBlock t c d ++ r)) filename today =
      ⟨extract_ticket_from_filename filename,
       parse_use_statement (p ++ (malformedBlock t c d ++ r)),
       today⟩ := by
  have hnone : parse_comment (p ++ (malformedBlock t c d ++ r)) = none :=
    parse_comment_eq_none
      (by rw [count_malformed p t c d r hp ht hc hd hr]; omega)
  exact ⟨hnone, by simp [extract, hnone]⟩

theorem claim_c2_witness :
    parse_comment (([] : List Char) ++
        (malformedBlock "LBDM-1".toList "Acme".toList "2024/01/05".toList ++ [])) =
      none :=
  (claim_c2 [] "LBDM-1".toList "Acme".toList "2024/01/05".toList []
      "x.sql".toList "2024-02-02".toList (by decide) (by decide) (by decide)
      (by decide) (by decide)).1

/-- Claim C3: when the content holds no metadata comment block, the ticket
comes from the filename search for LBDM, LBIN or PROV followed by a dash
and digits, and the client from the USE statement search; the example
filename report_PROV-42_final.sql with content USE AcmeProd123; yields
ticket PROV-42 and client AcmeProd. -/
theorem claim_c3 (today : List Char) :
    (∀ content filename, parse_comment content = none →
      extract content filename today =
        ⟨extract_ticket_from_filename filename, parse_use_statement content,
         today⟩) ∧
    extract "USE AcmeProd123;".toList "report_PROV-42_final.sql".toList
        today =
      ⟨"PROV-42".toList, "AcmeProd".toList, today⟩ := by
  constructor
  · intro content filename h
    simp [extract, h]
  · have h : parse_comment "USE AcmeProd123;".toList = none := by decide
    have h2 : extract_ticket_from_filename "report_PROV-42_final.sql".toList =
        "PROV-42".toList := by decide
    have h3 : parse_use_statement "USE AcmeProd123;".toList =
        "AcmeProd".toList := by decide
    rw [extract, h, h2, h3]

theorem claim_c3_witness :
    extract "SELECT 1".toList "a.sql".toList "2024-01-02".toList =
      ⟨extract_ticket_from_filename "a.sql".toList,
       parse_use_statement "SELECT 1".toList, "2024-01-02".toList⟩ :=
  (claim_c3 "2024-01-02".toList).1 "SELECT 1".toList "a.sql".toList
    (by decide)

/-- Claim C4: get_category is total over any table and any extension
string, returning either the capitalised name of a table entry or the
literal Other, and every extension not present in the table maps to
Other. -/
theorem claim_c4 (table : List (List Char × List (List Char)))
    (ext : List Char) :
    (get_category table ext = "Other".toList ∨
      ∃ q ∈ table, get_category table ext = pyCapitalize q.1) ∧
    ((∀ q ∈ table,
        ext.map Char.toLower ∉ q.2.map (fun x => x.map Char.toLower)) →
      get_category table ext = "Other".toList) := by
  rw [get_category]
  exact lookupCat_spec (ext.map Char.toLower) table

theorem claim_c4_witness :
    get_category defaultCategories ".xyz".toList = "Other".toList :=
  (claim_c4 defaultCategories ".xyz".toList).2 (by decide)

/-- Claim C5: the leftmost well-formed block wins: with a slash-free
prefix, a first well-formed block, arbitrary middle text and a second
block after it, the comment parse returns the fields of the first block. -/
theorem claim_c5 (p m2 r t1 c1 d1 t2 c2 d2 : List Char)
    (hp : '/' ∉ p) (ht1 : ';' ∉ t1) (hc1 : ';' ∉ c1) (hd1 : ';' ∉ d1) :
    parse_comment
        (p ++ (metaBlock t1 c1 d1 ++ (m2 ++ (metaBlock t2 c2 d2 ++ r)))) =
      some (pyStrip t1, pyStrip c1, (pyStrip d1).map slashToDash) :=
  parse_comment_block p t1 c1 d1 (m2 ++ (metaBlock t2 c2 d2 ++ r))
    hp ht1 hc1 hd1

theorem claim_c5_witness :
    parse_comment ("-- header, no block here\n".toList ++
        (metaBlock "A".toList "B".toList "C".toList ++
          ("\n".toList ++
            (metaBlock "X".toList "Y".toList "Z".toList ++ [])))) =
      some ("A".toList, "B".toList, "C".toList) :=
  (claim_c5 "-- header, no block here\n".toList "\n".toList []
      "A".toList "B".toList "C".toList "X".toList "Y".toList "Z".toList
      (by decide) (by decide) (by decide) (by decide)).trans (by decide)

/-- Claim C6: with no metadata comment, no ticket token in the filename and
no USE statement in the content, extract returns UnknownTicket,
UnknownClient and the current date. -/
theorem claim_c6 (content filename today : List Char)
    (h1 : parse_comment content = none)
    (h2 : searchFrom tryTicketAt filename = none)
    (h3 : searchFrom tryUseAt content = none) :
    extract content filename today =
      ⟨"UnknownTicket".toList, "UnknownClient".toList, today⟩ := by
  simp [extract, h1, extract_ticket_from_filename, h2, parse_use_statement,
    h3]

theorem claim_c6_witness :
    extract "SELECT 1 FROM t".toList "notes.sql".toList "2024-05-05".toList =
      ⟨"UnknownTicket".toList, "UnknownClient".toList,
       "2024-05-05".toList⟩ :=
  claim_c6 "SELECT 1 FROM t".toList "notes.sql".toList "2024-05-05".toList
    (by decide) (by decide) (by decide)

/-- Claim C7: get_category is case-insensitive in its input, since the
extension is lower-cased before lookup and ASCII lower-casing is
idempotent; in particular the extensions .MP3 and .mp3 agree on the
default table. -/
theorem claim_c7 (table : List (List Char × List (List Char)))
    (ext : List Char) :
    get_category table ext = get_category table (ext.map Char.toLower) ∧
    get_category defaultCategories ".MP3".toList =
      get_category defaultCategories ".mp3".toList := by
  refine ⟨?_, by decide⟩
  rw [get_category, get_category, map_toLower_idem]

/-- Claim C8: extract is deterministic in ticket and client: the current
date parameter, the only time-dependent input, influences the date field
alone. -/
theorem claim_c8 (content filename today1 today2 : List Char) :
    (extract content filename today1).ticket =
      (extract content filename today2).ticket ∧
    (extract content filename today1).client =
      (extract content filename today2).client := by
  cases hp : parse_comment content with
  | none => simp [extract, hp]
  | some v =>
    obtain ⟨t, c, d⟩ := v
    simp [extract, hp]

/-- Claim C9: the fallback is per field and triggers on empty values: when
the comment matches but the Ticket or Client value trims to the empty
string, that field comes from its fallback strategy instead. -/
theorem claim_c9 (content filename today t c d : List Char)
    (h : parse_comment content = some (t, c, d)) :
    (t = [] →
      (extract content filename today).ticket =
        extract_ticket_from_filename filename) ∧
    (c = [] →
      (extract content filename today).client =
        parse_use_statement content) := by
  constructor <;> intro he <;> simp [extract, h, he]

theorem claim_c9_witness :
    (extract "/** Ticket: ; Client: ; Date: 2024/01/05; */".toList
        "LBDM-7_x.sql".toList "2099-01-01".toList).ticket =
      extract_ticket_from_filename "LBDM-7_x.sql".toList ∧
    (extract "/** Ticket: ; Client: ; Date: 2024/01/05; */".toList
        "LBDM-7_x.sql".toList "2099-01-01".toList).client =
      parse_use_statement
        "/** Ticket: ; Client: ; Date: 2024/01/05; */".toList :=
  ⟨(claim_c9 "/** Ticket: ; Client: ; Date: 2024/01/05; */".toList
      "LBDM-7_x.sql".toList "2099-01-01".toList [] []
      "2024-01-05".toList (by decide)).1 rfl,
   (claim_c9 "/** Ticket: ; Client: ; Date: 2024/01/05; */".toList
      "LBDM-7_x.sql".toList "2099-01-01".toList [] []
      "2024-01-05".toList (by decide)).2 rfl⟩

/-- Claim C10: when the database name matched after USE starts with a
character that is not a letter, the client fallback returns the whole
matched identifier verbatim; in particular USE 123abc yields 123abc. -/
theorem claim_c10 (content dbName : List Char)
    (h : searchFrom tryUseAt content = some dbName)
    (hh : dbName.takeWhile Char.isAlpha = []) :
    parse_use_statement content = dbName ∧
    parse_use_statement "USE 123abc".toList = "123abc".toList := by
  refine ⟨?_, by decide⟩
  rw [parse_use_statement, h]
  simp [hh]

theorem claim_c10_witness :
    parse_use_statement "USE 123abc".toList = "123abc".toList :=
  (claim_c10 "USE 123abc".toList "123abc".toList (by decide) (by decide)).1

end DirCleaner
